import Mathlib

/-!
Verification of the algorithmic core of the `universal-bot-plugins` repository:
the Home Assistant plugin's entity-alias resolution
(`src/homeassistant/plugin.py`, `_extract_aliases_from_name` and
`_find_entities_by_alias`) and the YouTube plugin's chunked summarization
pipeline (`src/youtube/plugin.py`, `_chunk_text`, `_summarize_with_ai`,
`_single_pass_summarize`, `_chunked_summarize`, `_summarize_chunk`,
`_create_final_summary`).

Python strings are modelled as `List Char` (`Str`).  Python's `str.lower`,
`str.isalpha`, `str.isdigit`, `str.strip` are modelled with ASCII character
semantics; this agrees with CPython on every input reachable in the theorems
below, because the alias extractor discards any token containing a
non-ASCII character before the Unicode behaviour of those methods could be
observed, and the remaining call sites are exercised on ASCII data only.
-/

namespace UBP

abbrev Str := List Char

/-- Coerce a Lean string literal to the `List Char` model. -/
def lit (s : String) : Str := s.data

/-- Python `s.lower()` (ASCII range). -/
def pyLower (s : Str) : Str := s.map Char.toLower

/-- Python `s.strip(chars)`: remove leading and trailing characters that
belong to `strips`. -/
def pyStrip (strips : Str) (s : Str) : Str :=
  ((s.dropWhile (· ∈ strips)).reverse.dropWhile (· ∈ strips)).reverse

/-- Python `s.strip()` with no argument: strip whitespace from both ends. -/
def pyStripWS (s : Str) : Str :=
  ((s.dropWhile Char.isWhitespace).reverse.dropWhile Char.isWhitespace).reverse

/-- Python `s.split()` with no argument: split on whitespace runs,
discarding empty pieces. -/
def pySplitWS (s : Str) : List Str :=
  (s.splitOnP Char.isWhitespace).filter (fun t => t ≠ [])

/-- Python `s.isdigit()` on ASCII data: nonempty and all characters are
decimal digits. -/
def pyIsDigit (s : Str) : Bool := !s.isEmpty && s.all Char.isDigit

/-- Python `s.isascii()`: every character is in the ASCII range. -/
def pyIsAscii (s : Str) : Bool := s.all fun c => c.toNat < 128

/-- Python `s.isalpha()` on ASCII data: nonempty and all characters are
letters.  In `_extract_aliases_from_name` this is only consulted in
conjunction with `isascii`, where ASCII semantics coincide with CPython. -/
def pyIsAlpha (s : Str) : Bool := !s.isEmpty && s.all Char.isAlpha

/-- `needle.isPrefixOf hay` for the character-list model. -/
def strStartsWith : Str → Str → Bool
  | [], _ => true
  | _ :: _, [] => false
  | a :: as, b :: bs => (a == b) && strStartsWith as bs

/-- Python `needle in hay` for strings: contiguous-substring test
(the empty string is a substring of everything). -/
def pyIn (needle : Str) : Str → Bool
  | [] => needle.isEmpty
  | c :: rest => strStartsWith needle (c :: rest) || pyIn needle rest

/-- Python `sep.join(pieces)`. -/
def pyJoin (sep : Str) : List Str → Str
  | [] => []
  | [s] => s
  | s :: rest => s ++ sep ++ pyJoin sep rest

/-! ## Home Assistant plugin: alias resolution -/

/-- Stop-word set of `_extract_aliases_from_name`
(`src/homeassistant/plugin.py` lines 106-109). -/
def stop_words : List Str :=
  ["light", "lamp", "bulb", "switch", "the", "a", "an", "and", "or", "of",
   "in", "on", "at", "to", "for", "wake", "wol", "lan", "button", "sensor",
   "ping", "icmp", "binary", "todo", "list"].map lit

/-- The punctuation characters stripped from each token:
Python `word.strip('()[]\x7b\x7d.,!?":;')`. -/
def alias_strip_chars : Str :=
  ['(', ')', '[', ']', Char.ofNat 123, Char.ofNat 125, '.', ',', '!', '?',
   '"', ':', ';']

/-- Keep a stripped token?  Mirrors the two nested guards of the source loop:
`if word and not word.isdigit() and word not in stop_words` followed by
`if word.isascii() and word.isalpha()`. -/
def keep_word (w : Str) : Bool :=
  !w.isEmpty && !pyIsDigit w && !stop_words.contains w
    && pyIsAscii w && pyIsAlpha w

/-- `_extract_aliases_from_name` (`src/homeassistant/plugin.py` 100-122):
lowercase, tokenize on whitespace, strip punctuation from each token,
keep the tokens that pass `keep_word`, preserving order. -/
def extract_aliases_from_name (name : Str) : List Str :=
  if name.isEmpty then []
  else
    (pySplitWS (pyLower name)).filterMap fun w0 =>
      let w := pyStrip alias_strip_chars w0
      if !w.isEmpty && !pyIsDigit w && !stop_words.contains w then
        if pyIsAscii w && pyIsAlpha w then some w else none
      else none

/-- Entity snapshot as consumed by `_find_entities_by_alias`: an
`entity_id`, a `state` and an attribute mapping (association list). -/
structure Entity where
  entity_id : Str
  state : Str
  attributes : List (String × Str)
deriving DecidableEq, Repr

/-- Python `entity.attributes.get(key, default)`. -/
def Entity.getAttr (e : Entity) (key : String) (dflt : Str) : Str :=
  match e.attributes.find? (fun p => p.1 == key) with
  | some p => p.2
  | none => dflt

/-- The alias set of one entity, as computed inside the exact-match loop of
`_find_entities_by_alias` (lines 130-141): tokens of the id segment after
the first dot split on underscores, plus `extract_aliases_from_name` of the
friendly name. -/
def entity_aliases (e : Entity) : List Str :=
  let entity_id := pyLower e.entity_id
  let friendly_name := e.getAttr "friendly_name" []
  let entity_parts :=
    if entity_id.contains '.' then
      pySplitWS (((entity_id.splitOn '.').getD 1 []).map
        fun c => if c == '_' then ' ' else c)
    else []
  entity_parts ++ extract_aliases_from_name friendly_name

/-- Exact-alias test of the first pass (line 144). -/
def exact_alias_match (st : Str) (e : Entity) : Bool :=
  (entity_aliases e).contains st

/-- Substring test of the fallback pass (lines 149-154). -/
def substring_match (st : Str) (e : Entity) : Bool :=
  pyIn st (pyLower e.entity_id)
    || pyIn st (pyLower (e.getAttr "friendly_name" []))

/-- `_find_entities_by_alias` (`src/homeassistant/plugin.py` 124-156):
normalize the term, collect exact-alias matches in input order; if none,
collect substring matches in input order. -/
def find_entities_by_alias (entities : List Entity) (search_term : Str) :
    List Entity :=
  let st := pyStripWS (pyLower search_term)
  let matching := entities.filter (exact_alias_match st)
  if matching.isEmpty then entities.filter (substring_match st)
  else matching

/-! ## YouTube plugin: text chunking -/

/-- Python slice `s[start:stop]` for `0 ≤ start ≤ stop`. -/
def pySlice (s : Str) (start stop : Nat) : Str := (s.take stop).drop start

/-- The `while start < len(text)` loop of `_chunk_text`
(`src/youtube/plugin.py` 738-746), with explicit fuel.  `none` means the
fuel ran out, i.e. the source loop performed more iterations than the given
bound.  The loop variable `start` stays in `Nat`; in the source it can only
become negative when `overlap > chunk_size`, and every theorem below stays
in the range `overlap ≤ chunk_size` where both semantics agree. -/
def chunk_text_loop (text : Str) (chunk_size overlap : Nat) :
    Nat → Nat → Option (List Str)
  | 0, _ => none
  | fuel + 1, start =>
    if start < text.length then
      let e := start + chunk_size
      let chunk := pySlice text start e
      if text.length ≤ e then some [chunk]
      else
        match chunk_text_loop text chunk_size overlap fuel (e - overlap) with
        | none => none
        | some rest => some (chunk :: rest)
    else some []

/-- `_chunk_text` (`src/youtube/plugin.py` 730-748).  The fuel
`text.length + 1` is sufficient whenever `overlap < chunk_size` (the loop
advances by at least one position per iteration); `none` reports that the
source loop would not have terminated within that bound. -/
def chunk_text (text : Str) (chunk_size overlap : Nat) : Option (List Str) :=
  if text.length ≤ chunk_size then some [text]
  else chunk_text_loop text chunk_size overlap (text.length + 1) 0

/-- Re-stitching of an overlapping chunk list: the first chunk followed by
the non-overlapping suffix of each subsequent chunk. -/
def stitch (overlap : Nat) (cs : List Str) : Str :=
  cs.headD [] ++ ((cs.drop 1).map (List.drop overlap)).flatten

/-! ## YouTube plugin: summarization pipeline

The injected model-calling capability abstracts `_make_api_call`
(`src/youtube/plugin.py` 771-858) at its argument boundary
`(model, text, title, chunk_num, total_chunks, call_type)`; it returns the
response content (possibly empty) or `none` for any HTTP error or
exception.  Each pipeline function additionally returns the ordered trace
of the API calls it issued, so that call-counting claims can be stated. -/

/-- One recorded `_make_api_call` invocation. -/
structure Call where
  model : String
  text : Str
  title : Str
  chunkNum : Option Nat
  totalChunks : Option Nat
  callType : String
deriving DecidableEq, Repr

/-- The injected model caller. -/
abbrev ModelCaller :=
  String → Str → Str → Option Nat → Option Nat → String → Option Str

/-- Does one model attempt count as a success?  Mirrors Python's
`if result:` truthiness test: a non-`None`, non-empty response. -/
def call_ok (caller : ModelCaller) (text title : Str)
    (cn tc : Option Nat) (ct : String) (m : String) : Bool :=
  !((caller m text title cn tc ct).getD []).isEmpty

/-- The `for attempt, model in enumerate(fallback_models)` loop shared by
`_single_pass_summarize`, `_summarize_chunk` and `_create_final_summary`:
try each model in order, return the first truthy result; a `None`, an
empty result or an exception advances to the next model.  Also returns the
trace of attempts made. -/
def try_fallback (caller : ModelCaller) (text title : Str)
    (cn tc : Option Nat) (ct : String) :
    List String → Option Str × List Call
  | [] => (none, [])
  | m :: ms =>
    let call : Call := ⟨m, text, title, cn, tc, ct⟩
    match caller m text title cn tc ct with
    | some s =>
      if s.isEmpty then
        let r := try_fallback caller text title cn tc ct ms
        (r.1, call :: r.2)
      else (some s, [call])
    | none =>
      let r := try_fallback caller text title cn tc ct ms
      (r.1, call :: r.2)

/-- Configuration consumed by the pipeline.  In the source,
`fallbackChunk` is `config["ai"]["fallback_models"]["chunk"]` and
`fallbackFinal` is `config["ai"]["fallback_models"]["final"]`; the latter
list is consulted both by `_single_pass_summarize` and by
`_create_final_summary`. -/
structure SummarizationConfig where
  chunkSize : Nat
  chunkOverlap : Nat
  maxChunks : Nat
  fallbackChunk : List String
  fallbackFinal : List String
deriving DecidableEq, Repr

/-- `_single_pass_summarize` (`src/youtube/plugin.py` 655-675): one attempt
per model of the `"final"` fallback list, stopping at the first success;
`none` when every model failed. -/
def single_pass_summarize (caller : ModelCaller) (cfg : SummarizationConfig)
    (transcript title : Str) : Option Str × List Call :=
  try_fallback caller transcript title none none "single_pass"
    cfg.fallbackFinal

/-- `_summarize_chunk` (`src/youtube/plugin.py` 750-769). -/
def summarize_chunk (caller : ModelCaller) (cfg : SummarizationConfig)
    (chunk title : Str) (chunk_num total_chunks : Nat) :
    Option Str × List Call :=
  try_fallback caller chunk title (some chunk_num) (some total_chunks)
    "chunk" cfg.fallbackChunk

/-- The `for i, chunk in enumerate(chunks)` loop of `_chunked_summarize`
(lines 697-706): summarize each chunk in order, appending each truthy
summary; a chunk whose fallback list is exhausted is skipped. -/
def process_chunks (caller : ModelCaller) (cfg : SummarizationConfig)
    (title : Str) (total_chunks : Nat) :
    List Str → Nat → List Str × List Call
  | [], _ => ([], [])
  | c :: cs, i =>
    let r := summarize_chunk caller cfg c title (i + 1) total_chunks
    let rest := process_chunks caller cfg title total_chunks cs (i + 1)
    match r.1 with
    | some s =>
      if s.isEmpty then (rest.1, r.2 ++ rest.2)
      else (s :: rest.1, r.2 ++ rest.2)
    | none => (rest.1, r.2 ++ rest.2)

/-- `_create_final_summary` (`src/youtube/plugin.py` 860-884): with no API
key, return the combined summaries untouched; otherwise try the `"final"`
fallback list and, when every model fails, return the combined chunk
summaries instead of failing.  This function never returns `None` in the
source, hence the plain `Str` result. -/
def create_final_summary (caller : ModelCaller) (cfg : SummarizationConfig)
    (hasKey : Bool) (combined title : Str) : Str × List Call :=
  if hasKey then
    let r := try_fallback caller combined title none none "final"
      cfg.fallbackFinal
    match r.1 with
    | some s => (s, r.2)
    | none => (combined, r.2)
  else (combined, [])

/-- The `"\n\n"` separator used to join chunk summaries (line 716). -/
def nn : Str := ['\n', '\n']

/-- `_chunked_summarize` (`src/youtube/plugin.py` 677-728).  The outer
`Option` reports termination of the `_chunk_text` loop (`none` only when
the source would not terminate); the inner `Option Str` is the function's
Python result (`none` = returned `None`). -/
def chunked_summarize (caller : ModelCaller) (cfg : SummarizationConfig)
    (hasKey : Bool) (transcript title : Str) :
    Option (Option Str) × List Call :=
  match chunk_text transcript cfg.chunkSize cfg.chunkOverlap with
  | none => (none, [])
  | some chunks0 =>
    let chunks :=
      if cfg.maxChunks < chunks0.length then chunks0.take cfg.maxChunks
      else chunks0
    let p := process_chunks caller cfg title chunks.length chunks 0
    if p.1.isEmpty then (some none, p.2)
    else if 1 < p.1.length then
      let combined := pyJoin nn p.1
      let f := create_final_summary caller cfg hasKey combined title
      if f.1.isEmpty then (some none, p.2 ++ f.2)
      else (some (some f.1), p.2 ++ f.2)
    else (some (some (p.1.headD [])), p.2)

/-- The hard-coded single-pass threshold `max_single_pass_length = 25000`
(`src/youtube/plugin.py` line 640). -/
def max_single_pass_length : Nat := 25000

/-- `_summarize_with_ai` (`src/youtube/plugin.py` 626-653): with no API
key, return `None`; otherwise single-pass for transcripts of at most
`max_single_pass_length` characters, chunked for longer ones. -/
def summarize_with_ai (caller : ModelCaller) (cfg : SummarizationConfig)
    (hasKey : Bool) (transcript title : Str) :
    Option (Option Str) × List Call :=
  if hasKey then
    if transcript.length ≤ max_single_pass_length then
      let r := single_pass_summarize caller cfg transcript title
      (some r.1, r.2)
    else chunked_summarize caller cfg hasKey transcript title
  else (some none, [])

/-! ## Per-call-site success predicates (used in theorem statements) -/

/-- Does some model of the chunk fallback list succeed on chunk `j` of
`chunks` (0-based), as attempted by `_chunked_summarize`? -/
def chunk_any_ok (caller : ModelCaller) (cfg : SummarizationConfig)
    (title : Str) (chunks : List Str) (j : Nat) : Bool :=
  cfg.fallbackChunk.any
    (call_ok caller (chunks.getD j []) title (some (j + 1))
      (some chunks.length) "chunk")

/-! ## Concrete data for the closed witness theorems -/

def entKitchen : Entity :=
  ⟨lit "light.kitchen_lamp", lit "on", [("friendly_name", lit "Kitchen Lamp")]⟩

def entOffice : Entity :=
  ⟨lit "light.office_lamp", lit "on", [("friendly_name", lit "Office Lamp")]⟩

/-- Caller for the degraded-final-merge witness: every chunk call succeeds,
every final-merge call fails. -/
def callerC4 : ModelCaller := fun m text _ _ _ ct =>
  if ct = "final" then none
  else if ct = "chunk" then some (lit ("S" ++ m) ++ text)
  else some (lit "x")

/-- Caller for the partial-failure witness: chunk calls fail exactly on the
chunk `"cd"`, succeed elsewhere. -/
def callerC5 : ModelCaller := fun _ text _ _ _ ct =>
  if ct = "chunk" then (if text = lit "cd" then none else some (lit "ok"))
  else some (lit "x")

/-- Caller for the single-pass witness: model `"f1"` fails, `"f2"`
succeeds. -/
def callerC6 : ModelCaller := fun m _ _ _ _ _ =>
  if m = "f1" then none else some (lit "ok")

/-- Caller for the failure-semantics witness: every call fails. -/
def callerC7 : ModelCaller := fun _ _ _ _ _ _ => none

def cfgW : SummarizationConfig := ⟨2, 0, 10, ["c1", "c2"], ["f1", "f2"]⟩

/-! ## Helper lemmas -/

theorem toLower_of_isWhitespace {c : Char} (h : c.isWhitespace) :
    c.toLower = c := by
  simp only [Char.isWhitespace, Bool.or_eq_true, decide_eq_true_eq] at h
  rcases h with ((h | h) | h) | h <;> subst h <;> decide

theorem pyStripWS_eq_nil {s : Str} (h : ∀ c ∈ s, c.isWhitespace) :
    pyStripWS s = [] := by
  unfold pyStripWS
  rw [List.dropWhile_eq_nil_iff.mpr h]
  rfl

theorem pyIn_nil (hay : Str) : pyIn [] hay = true := by
  cases hay <;> rfl

theorem mem_pySplitWS_ne_nil {t : Str} {s : Str} (h : t ∈ pySplitWS s) :
    t ≠ [] := by
  unfold pySplitWS at h
  have := List.mem_filter.mp h
  simpa using this.2

theorem mem_extract_ne_nil {w name : Str}
    (h : w ∈ extract_aliases_from_name name) : w ≠ [] := by
  unfold extract_aliases_from_name at h
  split at h
  · simp at h
  · obtain ⟨w0, -, hw⟩ := List.mem_filterMap.mp h
    dsimp only at hw
    split at hw
    · split at hw
      · rename_i hcond _
        cases hw
        simp only [Bool.and_eq_true, Bool.not_eq_true'] at hcond
        simpa using hcond.1.1
      · cases hw
    · cases hw

theorem nil_not_mem_entity_aliases (e : Entity) :
    [] ∉ entity_aliases e := by
  intro h
  unfold entity_aliases at h
  rcases List.mem_append.mp h with h | h
  · split at h
    · exact mem_pySplitWS_ne_nil h rfl
    · simp at h
  · exact mem_extract_ne_nil h rfl

theorem pyJoin_ne_nil {sep : Str} {s : Str} {rest : List Str} (h : s ≠ []) :
    pyJoin sep (s :: rest) ≠ [] := by
  cases rest with
  | nil => simpa [pyJoin] using h
  | cons r t => simp [pyJoin, h]

theorem filterMap_guard {α β : Type} (g : α → β) (p : β → Bool)
    (l : List α) :
    l.filterMap (fun x => if p (g x) then some (g x) else none)
      = (l.map g).filter p := by
  induction l with
  | nil => rfl
  | cons a l ih =>
    by_cases h : p (g a) = true <;>
      simp [List.filterMap_cons, h, ih]

/-! ## Claims about the alias resolver -/

/-- C8: `extract_aliases_from_name` lowercases, tokenizes on whitespace,
strips leading/trailing punctuation from each token, and keeps — in token
order — exactly the tokens that are nonempty, not purely numeric, not stop
words, and made of ASCII letters only; the empty label yields `[]`, and
`"Kitchen Ceiling Lamp"` yields `kitchen` and `ceiling` but not the stop
word `lamp`. -/
theorem extract_aliases_spec :
    (∀ name : Str, extract_aliases_from_name name
        = ((pySplitWS (pyLower name)).map
            (pyStrip alias_strip_chars)).filter keep_word)
    ∧ extract_aliases_from_name (lit "Kitchen Ceiling Lamp")
        = [lit "kitchen", lit "ceiling"]
    ∧ extract_aliases_from_name [] = [] := by
  refine ⟨fun name => ?_, by decide, rfl⟩
  unfold extract_aliases_from_name
  split
  · rename_i hname
    have : name = [] := by simpa using hname
    subst this
    simp [pySplitWS, pyLower]
  · rw [← filterMap_guard (pyStrip alias_strip_chars) keep_word]
    apply List.filterMap_congr
    intro w0 _
    dsimp only
    set w := pyStrip alias_strip_chars w0 with hw
    have hk : keep_word w
        = ((!w.isEmpty && !pyIsDigit w && !stop_words.contains w)
            && (pyIsAscii w && pyIsAlpha w)) := by
      unfold keep_word
      rw [Bool.and_assoc]
    rw [hk]
    cases hA : (!w.isEmpty && !pyIsDigit w && !stop_words.contains w) <;>
      cases hB : (pyIsAscii w && pyIsAlpha w) <;> simp [hA, hB]

/-- C9: `find_entities_by_alias` returns a subsequence of its input: the
matched entities appear in input order and are the unmodified input
snapshots (resolution only filters, it never mutates). -/
theorem find_entities_sublist (entities : List Entity) (term : Str) :
    (find_entities_by_alias entities term).Sublist entities := by
  simp only [find_entities_by_alias]
  split
  · exact List.filter_sublist entities
  · exact List.filter_sublist entities

/-- C10: on a nonempty entity list whose entities all have nonempty alias
lists, a search term consisting only of whitespace normalizes to the empty
string, matches no alias exactly, and the substring fallback then matches
every entity, so the whole input list is returned in order. -/
theorem empty_term_returns_all (entities : List Entity) (term : Str)
    (hne : entities ≠ [])
    (hal : ∀ e ∈ entities, entity_aliases e ≠ [])
    (hws : ∀ c ∈ term, c.isWhitespace) :
    find_entities_by_alias entities term = entities := by
  have hst : pyStripWS (pyLower term) = [] := by
    apply pyStripWS_eq_nil
    intro c hc
    obtain ⟨d, hd, rfl⟩ := List.mem_map.mp hc
    rw [toLower_of_isWhitespace (hws d hd)]
    exact hws d hd
  have hexact : entities.filter (exact_alias_match []) = [] := by
    apply List.filter_eq_nil_iff.mpr
    intro e _ hc
    exact nil_not_mem_entity_aliases e (List.elem_iff.mp hc)
  have hsub : entities.filter (substring_match []) = entities := by
    apply List.filter_eq_self.mpr
    intro e _
    unfold substring_match
    rw [pyIn_nil, pyIn_nil]
    rfl
  simp only [find_entities_by_alias, hst, hexact, List.isEmpty_nil, if_true,
    hsub]

/-- C10 witness at the two-lamp snapshot with an all-whitespace term. -/
theorem empty_term_returns_all_w :
    find_entities_by_alias [entKitchen, entOffice] (lit "  ")
      = [entKitchen, entOffice] :=
  empty_term_returns_all [entKitchen, entOffice] (lit "  ")
    (by decide) (by decide) (by decide)

/-- C1: whenever some entity has the normalized term among its aliases, the
exact-alias phase is decisive — `find_entities_by_alias` returns exactly
the exact-phase matches (in input order) and the substring fallback is
never consulted. -/
theorem alias_exact_phase_priority (entities : List Entity) (term : Str)
    (h : ∃ e ∈ entities, pyStripWS (pyLower term) ∈ entity_aliases e) :
    find_entities_by_alias entities term
        = entities.filter (exact_alias_match (pyStripWS (pyLower term)))
      ∧ ∀ e ∈ find_entities_by_alias entities term,
          pyStripWS (pyLower term) ∈ entity_aliases e := by
  obtain ⟨e, he, hmem⟩ := h
  have hfil : e ∈ entities.filter
      (exact_alias_match (pyStripWS (pyLower term))) := by
    apply List.mem_filter.mpr
    exact ⟨he, List.elem_iff.mpr hmem⟩
  have hne : (entities.filter
      (exact_alias_match (pyStripWS (pyLower term)))).isEmpty = false := by
    cases hfl : entities.filter (exact_alias_match (pyStripWS (pyLower term)))
    · rw [hfl] at hfil; cases hfil
    · rfl
  have heq : find_entities_by_alias entities term
      = entities.filter (exact_alias_match (pyStripWS (pyLower term))) := by
    simp only [find_entities_by_alias, hne]
    simp
  refine ⟨heq, fun e' he' => ?_⟩
  rw [heq] at he'
  exact List.elem_iff.mp (List.mem_filter.mp he').2

/-- C1 witness: the spec's two-lamp example, term `"kitchen"`. -/
theorem alias_exact_phase_priority_w :
    find_entities_by_alias [entKitchen, entOffice] (lit "kitchen")
      = [entKitchen] := by
  have h := alias_exact_phase_priority [entKitchen, entOffice] (lit "kitchen")
    (by decide)
  exact h.1.trans (by decide)

/-! ## Claims about text chunking -/

theorem pySlice_eq (s : Str) (start k : Nat) :
    pySlice s start (start + k) = (s.drop start).take k := by
  unfold pySlice
  rw [List.drop_take, Nat.add_sub_cancel_left]

/-- Loop invariant of `_chunk_text`: under `0 < size` and `overlap < size`,
with enough fuel, the loop starting at `start < len` produces a nonempty
chunk list whose chunks all have length at most `size`, whose first chunk
is the slice at `start`, and which re-stitches to the tail of the text. -/
theorem chunk_text_loop_spec (text : Str) (size overlap : Nat)
    (hs : 0 < size) (ho : overlap < size) :
    ∀ fuel start, start < text.length → text.length - start ≤ fuel →
    ∃ cs, chunk_text_loop text size overlap fuel start = some cs ∧
      cs ≠ [] ∧ (∀ c ∈ cs, c.length ≤ size) ∧
      cs.headD [] = (text.drop start).take size ∧
      cs.headD [] ++ ((cs.drop 1).map (List.drop overlap)).flatten
        = text.drop start := by
  intro fuel
  induction fuel with
  | zero => intro start h1 h2; omega
  | succ n ih =>
    intro start h1 h2
    simp only [chunk_text_loop, if_pos h1]
    by_cases hend : text.length ≤ start + size
    · rw [if_pos hend]
      refine ⟨[pySlice text start (start + size)], rfl, by simp, ?_, ?_, ?_⟩
      · intro c hc
        simp only [List.mem_singleton] at hc
        subst hc
        rw [pySlice_eq]
        simp only [List.length_take]
        omega
      · simp [pySlice_eq]
      · simp only [List.headD_cons, List.drop_one, List.tail_cons,
          List.map_nil, List.flatten_nil, List.append_nil]
        rw [pySlice_eq]
        apply List.take_of_length_le
        simp only [List.length_drop]
        omega
    · rw [if_neg hend]
      have hlt : start + size < text.length := by omega
      have h1' : start + size - overlap < text.length := by omega
      have h2' : text.length - (start + size - overlap) ≤ n := by omega
      obtain ⟨rest, hrest, hne, hlen, hhead, hstitch⟩ := ih _ h1' h2'
      rw [hrest]
      refine ⟨pySlice text start (start + size) :: rest, rfl, by simp,
        ?_, ?_, ?_⟩
      · intro c hc
        rcases List.mem_cons.mp hc with hc | hc
        · subst hc
          rw [pySlice_eq]
          simp only [List.length_take]
          omega
        · exact hlen c hc
      · simp [pySlice_eq]
      · cases rest with
        | nil => exact absurd rfl hne
        | cons r rt =>
          simp only [List.headD_cons, List.drop_one, List.tail_cons]
            at hhead hstitch
          simp only [List.headD_cons, List.drop_one, List.tail_cons,
            List.map_cons, List.flatten_cons]
          have hrlen : overlap ≤ r.length := by
            rw [hhead]
            simp only [List.length_take, List.length_drop]
            omega
          have key : r.drop overlap
              ++ ((rt.map (List.drop overlap)).flatten)
              = text.drop (start + size) := by
            have e1 : (r ++ ((rt.map (List.drop overlap)).flatten)).drop overlap
                = r.drop overlap ++ ((rt.map (List.drop overlap)).flatten) :=
              List.drop_append_of_le_length hrlen
            rw [hstitch] at e1
            rw [← e1, List.drop_drop]
            congr 1
            omega
          rw [key, pySlice_eq]
          have hd : text.drop (start + size) = (text.drop start).drop size := by
            rw [List.drop_drop]
          rw [hd, List.take_append_drop]

/-- C2: with `size > 0` and `0 ≤ overlap < size`, `_chunk_text` returns
`[text]` whenever the text fits in one chunk, and otherwise a chunk list
whose chunks all have length at most `size` and which reproduces the text
when the first chunk is concatenated with the non-overlapping suffix of
each subsequent chunk. -/
theorem chunk_text_spec (text : Str) (size overlap : Nat)
    (hs : 0 < size) (ho : overlap < size) :
    (text.length ≤ size → chunk_text text size overlap = some [text])
    ∧ (size < text.length →
        ∃ cs, chunk_text text size overlap = some cs ∧
          (∀ c ∈ cs, c.length ≤ size) ∧ stitch overlap cs = text) := by
  constructor
  · intro h
    unfold chunk_text
    rw [if_pos h]
  · intro h
    obtain ⟨cs, hcs, hne, hlen, hhead, hstitch⟩ :=
      chunk_text_loop_spec text size overlap hs ho (text.length + 1) 0
        (by omega) (by omega)
    refine ⟨cs, ?_, hlen, ?_⟩
    · unfold chunk_text
      rw [if_neg (by omega)]
      exact hcs
    · unfold stitch
      simpa using hstitch

/-- C2 witness: `_chunk_text("abcdef", 4, 1)` yields `["abcd", "def"]`,
whose lengths are bounded by 4 and which stitches back to `"abcdef"`. -/
theorem chunk_text_spec_w :
    chunk_text (lit "abcdef") 4 1 = some [lit "abcd", lit "def"]
      ∧ (∀ c ∈ [lit "abcd", lit "def"], c.length ≤ 4)
      ∧ stitch 1 [lit "abcd", lit "def"] = lit "abcdef" := by
  obtain ⟨cs, h1, h2, h3⟩ :=
    (chunk_text_spec (lit "abcdef") 4 1 (by decide) (by decide)).2 (by decide)
  have hcs : cs = [lit "abcd", lit "def"] :=
    Option.some.inj (h1.symm.trans (by decide))
  subst hcs
  exact ⟨h1, h2, h3⟩

/-- C3 evidence: at `text = "ab"`, `chunk_size = 1`, `overlap = 1` the
source loop never advances: no amount of fuel makes `chunk_text_loop`
terminate, and there is no `InvalidConfiguration` fail-fast path anywhere
in `_chunk_text`.  The code therefore violates the claim, which describes
the spec's mandated (corrected) behavior. -/
theorem chunk_text_overlap_stall :
    (∀ fuel, chunk_text_loop (lit "ab") 1 1 fuel 0 = none)
    ∧ chunk_text (lit "ab") 1 1 = none := by
  have h : ∀ fuel, chunk_text_loop (lit "ab") 1 1 fuel 0 = none := by
    intro fuel
    induction fuel with
    | zero => rfl
    | succ n ih =>
      have hstep : chunk_text_loop (lit "ab") 1 1 (n + 1) 0
          = match chunk_text_loop (lit "ab") 1 1 n 0 with
            | none => none
            | some rest => some (pySlice (lit "ab") 0 1 :: rest) := rfl
      rw [hstep, ih]
  exact ⟨h, h 3⟩

/-! ## Helper lemmas about the fallback loop and chunk processing -/

theorem try_fallback_some_isEmpty_false (caller : ModelCaller)
    (text title : Str) (cn tc : Option Nat) (ct : String) :
    ∀ models s, (try_fallback caller text title cn tc ct models).1 = some s →
      s.isEmpty = false := by
  intro models
  induction models with
  | nil => intro s h; cases h
  | cons m ms ih =>
    intro s h
    simp only [try_fallback] at h
    split at h
    · split at h
      · exact ih s h
      · rename_i hr
        obtain rfl : _ = s := Option.some.inj h
        simpa using hr
    · exact ih s h

theorem try_fallback_none_iff (caller : ModelCaller)
    (text title : Str) (cn tc : Option Nat) (ct : String) :
    ∀ models, (try_fallback caller text title cn tc ct models).1 = none ↔
      ∀ m ∈ models, call_ok caller text title cn tc ct m = false := by
  intro models
  induction models with
  | nil => simp [try_fallback]
  | cons m ms ih =>
    simp only [try_fallback]
    split
    · rename_i r heq
      split
      · rename_i hr
        show (try_fallback caller text title cn tc ct ms).1 = none ↔ _
        rw [ih]
        constructor
        · intro h m' hm'
          rcases List.mem_cons.mp hm' with hm' | hm'
          · subst hm'
            simp [call_ok, heq, hr]
          · exact h m' hm'
        · intro h m' hm'
          exact h m' (List.mem_cons_of_mem _ hm')
      · rename_i hr
        constructor
        · intro h; cases h
        · intro h
          have := h m (List.mem_cons_self m ms)
          simp only [call_ok, heq, Option.getD_some, Bool.not_eq_false'] at this
          exact absurd this hr
    · rename_i heq
      show (try_fallback caller text title cn tc ct ms).1 = none ↔ _
      rw [ih]
      constructor
      · intro h m' hm'
        rcases List.mem_cons.mp hm' with hm' | hm'
        · subst hm'
          simp [call_ok, heq]
        · exact h m' hm'
      · intro h m' hm'
        exact h m' (List.mem_cons_of_mem _ hm')

theorem try_fallback_all_fail (caller : ModelCaller)
    (text title : Str) (cn tc : Option Nat) (ct : String) :
    ∀ models, (∀ m ∈ models, call_ok caller text title cn tc ct m = false) →
      try_fallback caller text title cn tc ct models
        = (none, models.map fun m => Call.mk m text title cn tc ct) := by
  intro models
  induction models with
  | nil => intro _; rfl
  | cons m ms ih =>
    intro h
    have hm := h m (List.mem_cons_self m ms)
    have hms := fun m' hm' => h m' (List.mem_cons_of_mem m hm')
    simp only [try_fallback]
    split
    · rename_i r heq
      simp only [call_ok, heq, Option.getD_some, Bool.not_eq_false'] at hm
      rw [if_pos hm, ih hms]
      rfl
    · rw [ih hms]
      rfl

theorem try_fallback_first_success (caller : ModelCaller)
    (text title : Str) (cn tc : Option Nat) (ct : String) :
    ∀ pre m post, (∀ m' ∈ pre, call_ok caller text title cn tc ct m' = false) →
      call_ok caller text title cn tc ct m = true →
      ∃ s, caller m text title cn tc ct = some s ∧ s.isEmpty = false ∧
        try_fallback caller text title cn tc ct (pre ++ m :: post)
          = (some s,
            (pre ++ [m]).map fun m' => Call.mk m' text title cn tc ct) := by
  intro pre
  induction pre with
  | nil =>
    intro m post _ hm
    cases hc : caller m text title cn tc ct with
    | some r =>
      simp only [call_ok, hc, Option.getD_some, Bool.not_eq_true'] at hm
      refine ⟨r, rfl, hm, ?_⟩
      simp only [List.nil_append, try_fallback, hc]
      rw [if_neg (by simp [hm])]
      rfl
    | none =>
      simp [call_ok, hc] at hm
  | cons q qs ih =>
    intro m post h hm
    have hq := h q (List.mem_cons_self q qs)
    obtain ⟨s, hs1, hs2, hs3⟩ :=
      ih m post (fun m' hm' => h m' (List.mem_cons_of_mem q hm')) hm
    refine ⟨s, hs1, hs2, ?_⟩
    simp only [List.cons_append, try_fallback, List.append_eq]
    split
    · rename_i r heq
      simp only [call_ok, heq, Option.getD_some, Bool.not_eq_false'] at hq
      rw [if_pos hq, hs3]
      rfl
    · rw [hs3]
      rfl

theorem try_fallback_trace_callType (caller : ModelCaller)
    (text title : Str) (cn tc : Option Nat) (ct : String) :
    ∀ models c, c ∈ (try_fallback caller text title cn tc ct models).2 →
      c.callType = ct := by
  intro models
  induction models with
  | nil => intro c h; cases h
  | cons m ms ih =>
    intro c h
    simp only [try_fallback] at h
    split at h
    · split at h
      · rcases List.mem_cons.mp h with h | h
        · subst h; rfl
        · exact ih c h
      · simp only [List.mem_singleton] at h
        subst h; rfl
    · rcases List.mem_cons.mp h with h | h
      · subst h; rfl
      · exact ih c h

theorem forall_lt_succ_iff {n : Nat} {Q : Nat → Prop} :
    (∀ j < n + 1, Q j) ↔ Q 0 ∧ ∀ j < n, Q (j + 1) := by
  constructor
  · exact fun h => ⟨h 0 (by omega), fun j hj => h (j + 1) (by omega)⟩
  · rintro ⟨h0, h⟩ j hj
    cases j with
    | zero => exact h0
    | succ k => exact h k (by omega)

theorem process_chunks_mem_isEmpty_false (caller : ModelCaller)
    (cfg : SummarizationConfig) (title : Str) (total : Nat) :
    ∀ chunks i s, s ∈ (process_chunks caller cfg title total chunks i).1 →
      s.isEmpty = false := by
  intro chunks
  induction chunks with
  | nil => intro i s h; cases h
  | cons c cs ih =>
    intro i s h
    simp only [process_chunks] at h
    split at h
    · split at h
      · exact ih (i + 1) s h
      · rename_i s' hr hs'
        rcases List.mem_cons.mp h with h | h
        · subst h; simpa using hs'
        · exact ih (i + 1) s h
    · exact ih (i + 1) s h

theorem process_chunks_nil_iff (caller : ModelCaller)
    (cfg : SummarizationConfig) (title : Str) (total : Nat) :
    ∀ chunks i, ((process_chunks caller cfg title total chunks i).1 = [] ↔
      ∀ j < chunks.length, cfg.fallbackChunk.any
        (call_ok caller (chunks.getD j []) title (some (i + j + 1))
          (some total) "chunk") = false) := by
  intro chunks
  induction chunks with
  | nil => intro i; simp [process_chunks]
  | cons c cs ih =>
    intro i
    simp only [process_chunks, List.length_cons]
    rw [forall_lt_succ_iff]
    have hQ0 : (cfg.fallbackChunk.any
        (call_ok caller ((c :: cs).getD 0 []) title (some (i + 0 + 1))
          (some total) "chunk") = false)
        ↔ ((summarize_chunk caller cfg c title (i + 1) total).1 = none) := by
      simp only [summarize_chunk]
      rw [try_fallback_none_iff]
      simp only [List.getD_cons_zero, Nat.add_zero]
      rw [List.any_eq_false]
      constructor
      · intro h m hm
        simpa using h m hm
      · intro h m hm
        simpa using h m hm
    have hQs : (∀ j < cs.length, cfg.fallbackChunk.any
        (call_ok caller ((c :: cs).getD (j + 1) []) title
          (some (i + (j + 1) + 1)) (some total) "chunk") = false)
        ↔ ∀ j < cs.length, cfg.fallbackChunk.any
            (call_ok caller (cs.getD j []) title (some (i + 1 + j + 1))
              (some total) "chunk") = false := by
      constructor
      · intro h j hj
        have e : i + 1 + j + 1 = i + (j + 1) + 1 := by omega
        rw [e]
        have := h j hj
        simpa [List.getD_cons_succ] using this
      · intro h j hj
        have e : i + (j + 1) + 1 = i + 1 + j + 1 := by omega
        rw [List.getD_cons_succ, e]
        exact h j hj
    split
    · rename_i s' hr
      have hs' : s'.isEmpty = false :=
        try_fallback_some_isEmpty_false caller c title (some (i + 1))
          (some total) "chunk" cfg.fallbackChunk s' hr
      split
      · rename_i he
        rw [hs'] at he
        cases he
      · constructor
        · intro h
          simp at h
        · rintro ⟨h0, -⟩
          rw [hQ0] at h0
          rw [hr] at h0
          cases h0
    · rename_i hr
      show (process_chunks caller cfg title total cs (i + 1)).1 = [] ↔ _
      rw [ih (i + 1)]
      constructor
      · intro h
        exact ⟨hQ0.mpr hr, hQs.mpr h⟩
      · rintro ⟨-, hs⟩
        exact hQs.mp hs

theorem process_chunks_all_ok_length (caller : ModelCaller)
    (cfg : SummarizationConfig) (title : Str) (total : Nat) :
    ∀ chunks i, (∀ j < chunks.length, cfg.fallbackChunk.any
        (call_ok caller (chunks.getD j []) title (some (i + j + 1))
          (some total) "chunk") = true) →
      (process_chunks caller cfg title total chunks i).1.length
        = chunks.length := by
  intro chunks
  induction chunks with
  | nil => intro i _; rfl
  | cons c cs ih =>
    intro i h
    have h0 := h 0 (by simp)
    simp only [List.getD_cons_zero, Nat.add_zero] at h0
    have hall : ∀ j < cs.length, cfg.fallbackChunk.any
        (call_ok caller (cs.getD j []) title (some (i + 1 + j + 1))
          (some total) "chunk") = true := by
      intro j hj
      have e : i + 1 + j + 1 = i + (j + 1) + 1 := by omega
      rw [e]
      have := h (j + 1) (by simp only [List.length_cons]; omega)
      simpa [List.getD_cons_succ] using this
    simp only [process_chunks]
    split
    · rename_i s' hr
      have hs' : s'.isEmpty = false :=
        try_fallback_some_isEmpty_false caller c title (some (i + 1))
          (some total) "chunk" cfg.fallbackChunk s' hr
      split
      · rename_i he
        rw [hs'] at he
        cases he
      · show (s' :: (process_chunks caller cfg title total cs (i + 1)).1).length
            = (c :: cs).length
        simp only [List.length_cons]
        rw [ih (i + 1) hall]
    · rename_i hr
      exfalso
      have hfail := (try_fallback_none_iff caller c title (some (i + 1))
        (some total) "chunk" cfg.fallbackChunk).mp hr
      rw [List.any_eq_true] at h0
      obtain ⟨m, hm, hok⟩ := h0
      rw [hfail m hm] at hok
      cases hok

theorem process_chunks_one_fail_length (caller : ModelCaller)
    (cfg : SummarizationConfig) (title : Str) (total : Nat) :
    ∀ chunks i i₀, i₀ < chunks.length →
      (∀ j < chunks.length, (cfg.fallbackChunk.any
          (call_ok caller (chunks.getD j []) title (some (i + j + 1))
            (some total) "chunk") = false ↔ j = i₀)) →
      (process_chunks caller cfg title total chunks i).1.length + 1
        = chunks.length := by
  intro chunks
  induction chunks with
  | nil => intro i i₀ h _; cases h
  | cons c cs ih =>
    intro i i₀ hi hpat
    simp only [process_chunks]
    cases i₀ with
    | zero =>
      have h0 : cfg.fallbackChunk.any
          (call_ok caller c title (some (i + 1)) (some total) "chunk")
            = false := by
        have := (hpat 0 (by simp)).mpr rfl
        simpa using this
      have hr : (summarize_chunk caller cfg c title (i + 1) total).1
          = none := by
        simp only [summarize_chunk]
        rw [try_fallback_none_iff]
        rw [List.any_eq_false] at h0
        intro m hm
        simpa using h0 m hm
      have hall : ∀ j < cs.length, cfg.fallbackChunk.any
          (call_ok caller (cs.getD j []) title (some (i + 1 + j + 1))
            (some total) "chunk") = true := by
        intro j hj
        have := hpat (j + 1) (by simp only [List.length_cons]; omega)
        simp only [List.getD_cons_succ, Nat.succ_ne_zero, iff_false] at this
        have e : i + 1 + j + 1 = i + (j + 1) + 1 := by omega
        rw [e]
        cases hv : cfg.fallbackChunk.any
            (call_ok caller (cs.getD j []) title (some (i + (j + 1) + 1))
              (some total) "chunk")
        · exact absurd hv this
        · rfl
      split
      · rename_i s' hr'
        rw [hr] at hr'
        cases hr'
      · show (process_chunks caller cfg title total cs (i + 1)).1.length + 1
            = (c :: cs).length
        simp only [List.length_cons]
        rw [process_chunks_all_ok_length caller cfg title total cs (i + 1)
          hall]
    | succ k =>
      have h0 : cfg.fallbackChunk.any
          (call_ok caller c title (some (i + 1)) (some total) "chunk")
            = true := by
        have := hpat 0 (by simp)
        simp only [List.getD_cons_zero, Nat.add_zero] at this
        cases hv : cfg.fallbackChunk.any
            (call_ok caller c title (some (i + 1)) (some total) "chunk")
        · exact absurd (this.mp hv) (by omega)
        · rfl
      have hk : k < cs.length := by
        simp only [List.length_cons] at hi
        omega
      have hshift : ∀ j < cs.length, (cfg.fallbackChunk.any
          (call_ok caller (cs.getD j []) title (some (i + 1 + j + 1))
            (some total) "chunk") = false ↔ j = k) := by
        intro j hj
        have := hpat (j + 1) (by simp only [List.length_cons]; omega)
        simp only [List.getD_cons_succ] at this
        have e : i + 1 + j + 1 = i + (j + 1) + 1 := by omega
        rw [e, this]
        omega
      split
      · rename_i s' hr
        have hs' : s'.isEmpty = false :=
          try_fallback_some_isEmpty_false caller c title (some (i + 1))
            (some total) "chunk" cfg.fallbackChunk s' hr
        split
        · rename_i he
          rw [hs'] at he
          cases he
        · show (s' :: (process_chunks caller cfg title total cs (i + 1)).1).length
              + 1 = (c :: cs).length
          simp only [List.length_cons]
          rw [ih (i + 1) k hk hshift]
      · rename_i hr
        exfalso
        have hfail := (try_fallback_none_iff caller c title (some (i + 1))
          (some total) "chunk" cfg.fallbackChunk).mp hr
        rw [List.any_eq_true] at h0
        obtain ⟨m, hm, hok⟩ := h0
        rw [hfail m hm] at hok
        cases hok

theorem create_final_isEmpty_false (caller : ModelCaller)
    (cfg : SummarizationConfig) (combined title : Str)
    (h : combined.isEmpty = false) :
    (create_final_summary caller cfg true combined title).1.isEmpty
      = false := by
  have hunf : create_final_summary caller cfg true combined title
      = (match (try_fallback caller combined title none none "final"
            cfg.fallbackFinal).1 with
        | some s => (s, (try_fallback caller combined title none none "final"
            cfg.fallbackFinal).2)
        | none => (combined, (try_fallback caller combined title none none
            "final" cfg.fallbackFinal).2)) := rfl
  rw [hunf]
  split
  · rename_i s hr
    exact try_fallback_some_isEmpty_false caller combined title none none
      "final" cfg.fallbackFinal s hr
  · exact h

theorem create_final_summary_unfold (caller : ModelCaller)
    (cfg : SummarizationConfig) (combined title : Str) :
    create_final_summary caller cfg true combined title
      = match (try_fallback caller combined title none none "final"
            cfg.fallbackFinal).1 with
        | some s => (s, (try_fallback caller combined title none none "final"
            cfg.fallbackFinal).2)
        | none => (combined, (try_fallback caller combined title none none
            "final" cfg.fallbackFinal).2) := rfl

theorem summarize_with_ai_unfold (caller : ModelCaller)
    (cfg : SummarizationConfig) (transcript title : Str) :
    summarize_with_ai caller cfg true transcript title
      = if transcript.length ≤ max_single_pass_length then
          (some (single_pass_summarize caller cfg transcript title).1,
            (single_pass_summarize caller cfg transcript title).2)
        else chunked_summarize caller cfg true transcript title := rfl

/-! ## Claims about the summarization pipeline -/

/-- C4: in the chunked path, when at least two chunk summaries survive, the
combined text is their `"\n\n"`-join in original order, exactly one final
merge call is attempted per model of the `"final"` fallback list, and if
every one of them fails the degraded non-empty combination is returned
instead of an error. -/
theorem final_merge_degraded (caller : ModelCaller)
    (cfg : SummarizationConfig) (transcript title : Str)
    (chunks0 chunks : List Str) (p : List Str × List Call)
    (hch : chunk_text transcript cfg.chunkSize cfg.chunkOverlap
      = some chunks0)
    (hchunks : chunks = if cfg.maxChunks < chunks0.length then
      chunks0.take cfg.maxChunks else chunks0)
    (hp : p = process_chunks caller cfg title chunks.length chunks 0)
    (h2 : 2 ≤ p.1.length)
    (hfail : ∀ m ∈ cfg.fallbackFinal,
      call_ok caller (pyJoin nn p.1) title none none "final" m = false) :
    chunked_summarize caller cfg true transcript title
      = (some (some (pyJoin nn p.1)),
        p.2 ++ cfg.fallbackFinal.map
          fun m => Call.mk m (pyJoin nn p.1) title none none "final")
    ∧ (pyJoin nn p.1).isEmpty = false := by
  have hcomb : (pyJoin nn p.1).isEmpty = false := by
    cases hv : p.1 with
    | nil => rw [hv] at h2; simp at h2
    | cons s0 rest =>
      apply List.isEmpty_eq_false.mpr
      apply pyJoin_ne_nil
      apply List.isEmpty_eq_false.mp
      apply process_chunks_mem_isEmpty_false caller cfg title chunks.length
        chunks 0 s0
      rw [← hp, hv]
      exact List.mem_cons_self s0 rest
  have hcf : create_final_summary caller cfg true (pyJoin nn p.1) title
      = (pyJoin nn p.1, cfg.fallbackFinal.map
          fun m => Call.mk m (pyJoin nn p.1) title none none "final") := by
    rw [create_final_summary_unfold,
      try_fallback_all_fail caller (pyJoin nn p.1) title none none "final"
        cfg.fallbackFinal hfail]
  have hne : ¬(p.1.isEmpty = true) := by
    intro hv
    rw [List.isEmpty_iff.mp hv] at h2
    simp at h2
  have hgt : 1 < p.1.length := by omega
  refine ⟨?_, hcomb⟩
  simp only [chunked_summarize, hch]
  rw [← hchunks, ← hp, if_neg hne, if_pos hgt, hcf]
  rw [if_neg (by simpa using hcomb)]

/-- C4 witness: transcript `"abcd"` chunks to `["ab", "cd"]`, both chunk
summaries succeed, both final models fail, and the pipeline returns the
joined chunk summaries with exactly one final call per fallback model. -/
theorem final_merge_degraded_w :
    chunked_summarize callerC4 cfgW true (lit "abcd") (lit "T")
      = (some (some (pyJoin nn [lit "Sc1" ++ lit "ab", lit "Sc1" ++ lit "cd"])),
        (process_chunks callerC4 cfgW (lit "T") 2 [lit "ab", lit "cd"] 0).2
          ++ cfgW.fallbackFinal.map
            fun m => Call.mk m
              (pyJoin nn [lit "Sc1" ++ lit "ab", lit "Sc1" ++ lit "cd"])
              (lit "T") none none "final") := by
  have h := final_merge_degraded callerC4 cfgW (lit "abcd") (lit "T")
    [lit "ab", lit "cd"] [lit "ab", lit "cd"]
    (process_chunks callerC4 cfgW (lit "T") 2 [lit "ab", lit "cd"] 0)
    (by decide) (by decide) (by decide) (by decide) (by decide)
  exact h.1.trans (by decide)

/-- C5: in the chunked path, when every chunk-model call fails on exactly
one chunk and some model succeeds on every other chunk (with at least two
chunks), the failing chunk is omitted — the surviving summary count is the
chunk count minus one — and the pipeline still returns a non-empty
summary. -/
theorem chunk_partial_failure (caller : ModelCaller)
    (cfg : SummarizationConfig) (transcript title : Str)
    (chunks0 chunks : List Str) (i₀ : Nat)
    (hch : chunk_text transcript cfg.chunkSize cfg.chunkOverlap
      = some chunks0)
    (hchunks : chunks = if cfg.maxChunks < chunks0.length then
      chunks0.take cfg.maxChunks else chunks0)
    (hlen : 2 ≤ chunks.length) (hi : i₀ < chunks.length)
    (hpat : ∀ j < chunks.length,
      (chunk_any_ok caller cfg title chunks j = false ↔ j = i₀)) :
    (∃ s, (chunked_summarize caller cfg true transcript title).1
        = some (some s) ∧ s.isEmpty = false)
    ∧ (process_chunks caller cfg title chunks.length chunks 0).1.length + 1
        = chunks.length := by
  have hex : ∃ j, j < chunks.length
      ∧ chunk_any_ok caller cfg title chunks j = true := by
    by_cases h0 : i₀ = 0
    · refine ⟨1, by omega, ?_⟩
      have h1 := hpat 1 (by omega)
      cases hv : chunk_any_ok caller cfg title chunks 1
      · exact absurd (h1.mp hv) (by omega)
      · rfl
    · refine ⟨0, by omega, ?_⟩
      have h1 := hpat 0 (by omega)
      cases hv : chunk_any_ok caller cfg title chunks 0
      · exact absurd (h1.mp hv).symm h0
      · rfl
  have hplen : (process_chunks caller cfg title chunks.length chunks 0).1.length
      + 1 = chunks.length := by
    apply process_chunks_one_fail_length caller cfg title chunks.length
      chunks 0 i₀ hi
    intro j hj
    have e : 0 + j + 1 = j + 1 := by omega
    rw [e]
    simpa [chunk_any_ok] using hpat j hj
  have hpne : (process_chunks caller cfg title chunks.length chunks 0).1
      ≠ [] := by
    intro hnil
    have hall := (process_chunks_nil_iff caller cfg title chunks.length
      chunks 0).mp hnil
    obtain ⟨j, hj, hok⟩ := hex
    have hf := hall j hj
    have e : 0 + j + 1 = j + 1 := by omega
    rw [e] at hf
    unfold chunk_any_ok at hok
    rw [hf] at hok
    cases hok
  refine ⟨?_, hplen⟩
  simp only [chunked_summarize, hch]
  rw [← hchunks]
  rw [if_neg (by simpa [List.isEmpty_eq_false] using hpne)]
  by_cases hgt : 1 < (process_chunks caller cfg title chunks.length
      chunks 0).1.length
  · rw [if_pos hgt]
    cases hv : (process_chunks caller cfg title chunks.length chunks 0).1 with
    | nil => exact absurd hv hpne
    | cons s0 rest =>
      have hs0 : s0.isEmpty = false := by
        apply process_chunks_mem_isEmpty_false caller cfg title chunks.length
          chunks 0 s0
        rw [hv]
        exact List.mem_cons_self s0 rest
      have hcomb : (pyJoin nn (s0 :: rest)).isEmpty = false :=
        List.isEmpty_eq_false.mpr
          (pyJoin_ne_nil (List.isEmpty_eq_false.mp hs0))
      have hf := create_final_isEmpty_false caller cfg
        (pyJoin nn (s0 :: rest)) title hcomb
      rw [if_neg (by simpa using hf)]
      exact ⟨_, rfl, hf⟩
  · rw [if_neg hgt]
    cases hv : (process_chunks caller cfg title chunks.length chunks 0).1 with
    | nil => exact absurd hv hpne
    | cons s0 rest =>
      have hs0 : s0.isEmpty = false := by
        apply process_chunks_mem_isEmpty_false caller cfg title chunks.length
          chunks 0 s0
        rw [hv]
        exact List.mem_cons_self s0 rest
      exact ⟨s0, rfl, hs0⟩

/-- C5 witness: transcript `"abcd"` chunks to `["ab", "cd"]`; every model
fails on chunk 1 (`"cd"`) and succeeds on chunk 0, and a non-empty summary
is still produced with exactly one surviving chunk summary. -/
theorem chunk_partial_failure_w :
    (∃ s, (chunked_summarize callerC5 cfgW true (lit "abcd") (lit "T")).1
        = some (some s) ∧ s.isEmpty = false)
    ∧ (process_chunks callerC5 cfgW (lit "T") 2 [lit "ab", lit "cd"] 0).1.length
        + 1 = 2 :=
  chunk_partial_failure callerC5 cfgW (lit "abcd") (lit "T")
    [lit "ab", lit "cd"] [lit "ab", lit "cd"] 1
    (by decide) (by decide) (by decide) (by decide) (by decide)

/-- C6: on a transcript within the single-pass threshold, `summarize`
uses only the single-pass fallback list: every issued call has type
`"single_pass"`; the result is independent of the chunking configuration
(so `_chunk_text` is never consulted); if every model fails the result is
`None` (`SummarizationFailed`) after exactly one call per fallback entry;
and the first succeeding model ends the attempt sequence immediately. -/
theorem single_pass_spec (caller : ModelCaller) (cfg : SummarizationConfig)
    (transcript title : Str)
    (hlen : transcript.length ≤ max_single_pass_length) :
    (∀ c ∈ (summarize_with_ai caller cfg true transcript title).2,
      c.callType = "single_pass")
    ∧ (∀ cfg' : SummarizationConfig, cfg.fallbackFinal = cfg'.fallbackFinal →
        summarize_with_ai caller cfg true transcript title
          = summarize_with_ai caller cfg' true transcript title)
    ∧ ((∀ m ∈ cfg.fallbackFinal,
        call_ok caller transcript title none none "single_pass" m = false) →
        summarize_with_ai caller cfg true transcript title
          = (some none, cfg.fallbackFinal.map
              fun m => Call.mk m transcript title none none "single_pass"))
    ∧ (∀ pre m post, cfg.fallbackFinal = pre ++ m :: post →
        (∀ m' ∈ pre,
          call_ok caller transcript title none none "single_pass" m' = false) →
        call_ok caller transcript title none none "single_pass" m = true →
        ∃ s, caller m transcript title none none "single_pass" = some s
          ∧ s.isEmpty = false
          ∧ summarize_with_ai caller cfg true transcript title
              = (some (some s), (pre ++ [m]).map
                  fun m' => Call.mk m' transcript title none none
                    "single_pass")) := by
  refine ⟨?_, ?_, ?_, ?_⟩
  · intro c hc
    rw [summarize_with_ai_unfold, if_pos hlen] at hc
    exact try_fallback_trace_callType caller transcript title none none
      "single_pass" cfg.fallbackFinal c hc
  · intro cfg' hEq
    rw [summarize_with_ai_unfold, summarize_with_ai_unfold, if_pos hlen,
      if_pos hlen]
    simp only [single_pass_summarize, hEq]
  · intro hall
    rw [summarize_with_ai_unfold, if_pos hlen]
    simp only [single_pass_summarize]
    rw [try_fallback_all_fail caller transcript title none none "single_pass"
      cfg.fallbackFinal hall]
  · intro pre m post hsplit hpre hm
    obtain ⟨s, hs1, hs2, hs3⟩ := try_fallback_first_success caller transcript
      title none none "single_pass" pre m post hpre hm
    refine ⟨s, hs1, hs2, ?_⟩
    rw [summarize_with_ai_unfold, if_pos hlen]
    simp only [single_pass_summarize, hsplit]
    rw [hs3]

/-- C6 witness: a 2-character transcript, model `"f1"` failing and `"f2"`
succeeding: the result is `"f2"`'s output after calls to exactly
`["f1", "f2"]`, both of type `"single_pass"`. -/
theorem single_pass_spec_w :
    summarize_with_ai callerC6 cfgW true (lit "ab") (lit "T")
      = (some (some (lit "ok")), [lit "f1", lit "f2"].map
          fun m' => Call.mk m'.asString (lit "ab") (lit "T") none none
            "single_pass") := by
  obtain ⟨s, hs1, hs2, hs3⟩ := (single_pass_spec callerC6 cfgW (lit "ab")
    (lit "T") (by decide)).2.2.2 ["f1"] "f2" [] (by decide) (by decide)
    (by decide)
  have hs : s = lit "ok" := Option.some.inj (hs1.symm.trans (by decide))
  subst hs
  exact hs3.trans (by decide)

/-- C7: with an API key present, `summarize` returns `None`
(`SummarizationFailed`) exactly when no required call produced output — in
the single-pass path exactly when every single-pass fallback model fails,
in the chunked path exactly when every chunk exhausts its fallback list —
and any produced summary is non-empty. -/
theorem summarization_failure_iff (caller : ModelCaller)
    (cfg : SummarizationConfig) (transcript title : Str) :
    (transcript.length ≤ max_single_pass_length →
      ((summarize_with_ai caller cfg true transcript title).1 = some none ↔
        ∀ m ∈ cfg.fallbackFinal,
          call_ok caller transcript title none none "single_pass" m = false))
    ∧ (∀ chunks0 chunks, max_single_pass_length < transcript.length →
        chunk_text transcript cfg.chunkSize cfg.chunkOverlap = some chunks0 →
        chunks = (if cfg.maxChunks < chunks0.length then
          chunks0.take cfg.maxChunks else chunks0) →
        ((summarize_with_ai caller cfg true transcript title).1 = some none ↔
          ∀ j < chunks.length,
            chunk_any_ok caller cfg title chunks j = false))
    ∧ ∀ s, (summarize_with_ai caller cfg true transcript title).1
        = some (some s) → s.isEmpty = false := by
  refine ⟨?_, ?_, ?_⟩
  · intro hlen
    rw [summarize_with_ai_unfold, if_pos hlen]
    constructor
    · intro h
      exact (try_fallback_none_iff caller transcript title none none
        "single_pass" cfg.fallbackFinal).mp (Option.some.inj h)
    · intro h
      have := (try_fallback_none_iff caller transcript title none none
        "single_pass" cfg.fallbackFinal).mpr h
      show some (single_pass_summarize caller cfg transcript title).1
        = some none
      simp only [single_pass_summarize]
      rw [this]
  · intro chunks0 chunks hlen hch hchunks
    rw [summarize_with_ai_unfold, if_neg (by omega)]
    simp only [chunked_summarize, hch]
    rw [← hchunks]
    constructor
    · intro h
      cases hv : (process_chunks caller cfg title chunks.length chunks 0).1 with
      | nil =>
        have hall := (process_chunks_nil_iff caller cfg title chunks.length
          chunks 0).mp hv
        intro j hj
        have := hall j hj
        have e : 0 + j + 1 = j + 1 := by omega
        rw [e] at this
        simpa [chunk_any_ok] using this
      | cons s0 rest =>
        exfalso
        rw [hv] at h
        have hs0 : s0.isEmpty = false := by
          apply process_chunks_mem_isEmpty_false caller cfg title
            chunks.length chunks 0 s0
          rw [hv]
          exact List.mem_cons_self s0 rest
        rw [if_neg (by simp)] at h
        cases rest with
        | nil =>
          rw [if_neg (by simp)] at h
          cases h
        | cons r1 rest' =>
          rw [if_pos (by simp)] at h
          have hcomb : (pyJoin nn (s0 :: r1 :: rest')).isEmpty = false :=
            List.isEmpty_eq_false.mpr
              (pyJoin_ne_nil (List.isEmpty_eq_false.mp hs0))
          have hf := create_final_isEmpty_false caller cfg
            (pyJoin nn (s0 :: r1 :: rest')) title hcomb
          rw [if_neg (by simpa using hf)] at h
          cases h
    · intro hall
      have hnil : (process_chunks caller cfg title chunks.length chunks 0).1
          = [] := by
        apply (process_chunks_nil_iff caller cfg title chunks.length
          chunks 0).mpr
        intro j hj
        have e : 0 + j + 1 = j + 1 := by omega
        rw [e]
        simpa [chunk_any_ok] using hall j hj
      rw [hnil, if_pos (by simp)]
  · intro s h
    by_cases hlen : transcript.length ≤ max_single_pass_length
    · rw [summarize_with_ai_unfold, if_pos hlen] at h
      exact try_fallback_some_isEmpty_false caller transcript title none none
        "single_pass" cfg.fallbackFinal s (Option.some.inj h)
    · rw [summarize_with_ai_unfold, if_neg hlen] at h
      cases hch : chunk_text transcript cfg.chunkSize cfg.chunkOverlap with
      | none =>
        simp only [chunked_summarize, hch] at h
        cases h
      | some chunks0 =>
        simp only [chunked_summarize, hch] at h
        generalize hCH : (if cfg.maxChunks < chunks0.length then
          chunks0.take cfg.maxChunks else chunks0) = chunks at h
        cases hv : (process_chunks caller cfg title chunks.length
            chunks 0).1 with
        | nil =>
          rw [hv, if_pos (by simp)] at h
          cases h
        | cons s0 rest =>
          rw [hv] at h
          have hs0 : s0.isEmpty = false := by
            apply process_chunks_mem_isEmpty_false caller cfg title
              chunks.length chunks 0 s0
            rw [hv]
            exact List.mem_cons_self s0 rest
          rw [if_neg (by simp)] at h
          cases rest with
          | nil =>
            rw [if_neg (by simp)] at h
            obtain rfl : s0 = s := by
              have := Option.some.inj h
              exact Option.some.inj this
            exact hs0
          | cons r1 rest' =>
            rw [if_pos (by simp)] at h
            have hcomb : (pyJoin nn (s0 :: r1 :: rest')).isEmpty = false :=
              List.isEmpty_eq_false.mpr
                (pyJoin_ne_nil (List.isEmpty_eq_false.mp hs0))
            have hf := create_final_isEmpty_false caller cfg
              (pyJoin nn (s0 :: r1 :: rest')) title hcomb
            rw [if_neg (by simpa using hf)] at h
            obtain rfl : _ = s := by
              have := Option.some.inj h
              exact Option.some.inj this
            exact hf

/-- C7 witness: every model call fails, a short transcript, and
`summarize` returns `None`. -/
theorem summarization_failure_iff_w :
    (summarize_with_ai callerC7 cfgW true (lit "ab") (lit "T")).1
      = some none :=
  ((summarization_failure_iff callerC7 cfgW (lit "ab") (lit "T")).1
    (by decide)).mpr (by decide)

end UBP
